import Mathlib

/-!
Verification of the transcript chunking core of the
Lecture-Voice-to-Notes-Generator repository (`utils.py`).

Modelling conventions:
* Python strings are modelled as `List Char`, so that `str.strip()` becomes
  a provable function (`pyStrip`) rather than an opaque primitive.
* Whisper timestamps (`start` / `end` floats) are modelled as rationals:
  the chunker only copies and compares them, it never computes with them.
* `estimate_token_count` wraps the external `tiktoken` library, which is the
  Token Estimator collaborator of the spec (§4.1/§6).  It is modelled as an
  explicit function parameter `est : PyStr → ℤ` of the chunker; concrete
  estimators (the test-suite mock, a length estimator, constants) are
  instantiated below where concrete runs are needed.
-/

/-- A Python string, as a list of characters. -/
abbrev PyStr := List Char

/-- Python's default whitespace test used by `str.strip()`. -/
def isSpaceChar (c : Char) : Bool := c.isWhitespace

/-- Python `str.strip()`: drop leading and trailing whitespace. -/
def pyStrip (s : PyStr) : PyStr :=
  ((s.dropWhile isSpaceChar).reverse.dropWhile isSpaceChar).reverse

/-- One whisper transcript segment: the dict `{'text': …, 'start': …, 'end': …}`. -/
structure Segment where
  text : PyStr
  start : ℚ
  /-- the dict key `'end'` -/
  stop : ℚ
deriving DecidableEq, Repr

instance : Inhabited Segment := ⟨⟨[], 0, 0⟩⟩

/-- A yielded chunk dict `{'text': …, 'start_time': …, 'end_time': …}`. -/
structure Chunk where
  text : PyStr
  start_time : ℚ
  end_time : ℚ
deriving DecidableEq, Repr

/-- Instrumented chunk: the yielded dict together with the loop state it was
emitted from — `raw` is `current_chunk_text` before `.strip()`, and `segs` is
the `chunk_segments` list at the `yield`.  The actual yielded value is the
projection `ChunkR.toChunk`. -/
structure ChunkR where
  text : PyStr
  start_time : ℚ
  end_time : ℚ
  raw : PyStr
  segs : List Segment
deriving DecidableEq, Repr

def ChunkR.toChunk (c : ChunkR) : Chunk := ⟨c.text, c.start_time, c.end_time⟩

/-- `chunk_segments[-1]['end']`.  In the source this is only evaluated when
`current_chunk_text` is non-empty, which (provably) forces `chunk_segments`
to be non-empty, so the default is unreachable. -/
def lastEnd (csegs : List Segment) : ℚ := (csegs.getLastD default).stop

/-- The `for segment in segments:` loop of `chunk_transcript_segments`,
with state `(current_chunk_text, current_chunk_start_time, chunk_segments)`
passed explicitly.  Yields are collected into a list, in order. -/
def chunkLoop (est : PyStr → ℤ) (maxTok : ℤ) :
    PyStr → ℚ → List Segment → List Segment → List ChunkR
  | cur, startT, csegs, [] =>
      -- after the loop: yield the last remaining chunk
      if cur ≠ [] then [⟨pyStrip cur, startT, lastEnd csegs, cur, csegs⟩] else []
  | cur, startT, csegs, seg :: rest =>
      -- potential_chunk_text = current_chunk_text + " " + segment['text']
      if maxTok < est (cur ++ ' ' :: seg.text) then
        (if cur ≠ [] then [⟨pyStrip cur, startT, lastEnd csegs, cur, csegs⟩] else [])
          ++ chunkLoop est maxTok seg.text seg.start [seg] rest
      else
        chunkLoop est maxTok (cur ++ ' ' :: seg.text) startT (csegs ++ [seg]) rest

/-- `chunk_transcript_segments(segments, max_tokens_per_chunk)` (instrumented):
empty input yields nothing; otherwise `current_chunk_start_time` is
initialised to `segments[0]['start']` and the loop runs over all segments. -/
def chunkRec (est : PyStr → ℤ) (maxTok : ℤ) (segments : List Segment) : List ChunkR :=
  match segments with
  | [] => []
  | s :: rest => chunkLoop est maxTok [] s.start [] (s :: rest)

/-- The generator `chunk_transcript_segments`, as the list of dicts it yields
(in order), for a given token estimator `est`. -/
def chunk_transcript_segments (est : PyStr → ℤ) (segments : List Segment)
    (maxTok : ℤ) : List Chunk :=
  (chunkRec est maxTok segments).map ChunkR.toChunk

/-- Python `f"{n:02d}"` for a non-negative integer. -/
def pad2 (n : ℕ) : String := if n < 10 then "0" ++ toString n else toString n

/-- `format_timestamp(seconds)` from `utils.py`.  `int(seconds)` truncates
toward zero, which on the non-negative branch equals the floor.  The two
`divmod(_, 60)` calls are inlined: `minutes = total/60`, `seconds = total%60`,
`hours = minutes/60`, and the reassigned `minutes` is `total/60 % 60`. -/
def format_timestamp (seconds : ℚ) : String :=
  if seconds < 0 then
    "00:00"
  else if (⌊seconds⌋).toNat / 60 / 60 > 0 then
    pad2 ((⌊seconds⌋).toNat / 60 / 60) ++ ":" ++ pad2 ((⌊seconds⌋).toNat / 60 % 60)
      ++ ":" ++ pad2 ((⌊seconds⌋).toNat % 60)
  else
    pad2 ((⌊seconds⌋).toNat / 60 % 60) ++ ":" ++ pad2 ((⌊seconds⌋).toNat % 60)

/-! ## Helper notions for the chunking invariants -/

/-- Joining a list of segment texts with a single space: the shape
`current_chunk_text` takes after a budget-triggered restart. -/
def joinSp : List PyStr → PyStr
  | [] => []
  | [t] => t
  | t :: ts => t ++ ' ' :: joinSp ts

/-- The texts of a segment run, joined by single spaces. -/
def joinT (csegs : List Segment) : PyStr := joinSp (csegs.map Segment.text)

/-- The segment ranges covered by a chunk sequence, concatenated in order. -/
def coveredSegs (cs : List ChunkR) : List Segment := (cs.map ChunkR.segs).flatten

theorem coveredSegs_append (a b : List ChunkR) :
    coveredSegs (a ++ b) = coveredSegs a ++ coveredSegs b := by
  simp [coveredSegs]

theorem pyStrip_space_cons (s : PyStr) : pyStrip (' ' :: s) = pyStrip s := by
  have h : isSpaceChar ' ' = true := by decide
  simp [pyStrip, List.dropWhile_cons, h]

theorem joinSp_cons (x : PyStr) (l : List PyStr) (hl : l ≠ []) :
    joinSp (x :: l) = x ++ ' ' :: joinSp l := by
  cases l with
  | nil => exact absurd rfl hl
  | cons y ys => rfl

theorem joinSp_append_single (a : List PyStr) (t : PyStr) (ha : a ≠ []) :
    joinSp (a ++ [t]) = joinSp a ++ ' ' :: t := by
  induction a with
  | nil => exact absurd rfl ha
  | cons x xs ih =>
      cases xs with
      | nil => simp [joinSp]
      | cons y ys =>
          rw [List.cons_append, joinSp_cons x ((y :: ys) ++ [t]) (by simp),
            ih (by simp), joinSp_cons x (y :: ys) (by simp)]
          simp

theorem joinT_append_single (csegs : List Segment) (s : Segment) (h : csegs ≠ []) :
    joinT (csegs ++ [s]) = joinT csegs ++ ' ' :: s.text := by
  have : csegs.map Segment.text ≠ [] := by simpa using h
  simp only [joinT, List.map_append, List.map_cons, List.map_nil]
  exact joinSp_append_single _ _ this

/-- Coverage invariant of the scanning loop: the segment ranges of the chunks
it still emits are exactly the accumulated run followed by the unscanned rest.
Requires every remaining segment text to be non-empty (Python-truthy), which
is the spec's well-formedness condition on segments. -/
theorem chunkLoop_cover (est : PyStr → ℤ) (maxTok : ℤ) :
    ∀ (rest : List Segment) (cur : PyStr) (startT : ℚ) (csegs : List Segment),
      (∀ s ∈ rest, s.text ≠ []) → (cur = [] ↔ csegs = []) →
      coveredSegs (chunkLoop est maxTok cur startT csegs rest) = csegs ++ rest := by
  intro rest
  induction rest with
  | nil =>
      intro cur startT csegs _ hiff
      by_cases hcur : cur = []
      · simp [chunkLoop, hcur, coveredSegs, (hiff.mp hcur).symm]
      · simp [chunkLoop, hcur, coveredSegs]
  | cons seg rest ih =>
      intro cur startT csegs hne hiff
      have hseg : seg.text ≠ [] := hne seg (by simp)
      have hrest : ∀ s ∈ rest, s.text ≠ [] := fun s hs => hne s (by simp [hs])
      rw [chunkLoop]
      by_cases hover : maxTok < est (cur ++ ' ' :: seg.text)
      · rw [if_pos hover, coveredSegs_append,
          ih seg.text seg.start [seg] hrest (by simpa using hseg)]
        by_cases hcur : cur = []
        · simp [hcur, coveredSegs, (hiff.mp hcur).symm]
        · simp [hcur, coveredSegs]
      · rw [if_neg hover,
          ih (cur ++ ' ' :: seg.text) startT (csegs ++ [seg]) hrest (by simp)]
        simp

/-- Facts holding of every chunk the generator yields: non-empty covered run,
`start_time`/`end_time` taken from the first/last covered segment, text equal
to the stripped single-space join of the covered texts (and to the stripped
raw accumulator), raw accumulator of one of the two reachable shapes, and the
soft budget bound whenever the chunk covers at least two segments. -/
def ChunkFacts (est : PyStr → ℤ) (maxTok : ℤ) (c : ChunkR) : Prop :=
  c.segs ≠ [] ∧
  c.start_time = (c.segs.headD default).start ∧
  c.end_time = (c.segs.getLastD default).stop ∧
  c.text = pyStrip (joinT c.segs) ∧
  c.text = pyStrip c.raw ∧
  (c.raw = joinT c.segs ∨ c.raw = ' ' :: joinT c.segs) ∧
  (2 ≤ c.segs.length → est c.raw ≤ maxTok)

/-- Invariant preservation for the scanning loop, giving `ChunkFacts` for every
chunk it emits.  The three hypotheses are the reachable-state invariants of the
loop variables `(current_chunk_text, current_chunk_start_time, chunk_segments)`. -/
theorem chunkLoop_facts (est : PyStr → ℤ) (maxTok : ℤ) :
    ∀ (rest : List Segment) (cur : PyStr) (startT : ℚ) (csegs : List Segment),
      (csegs = [] → cur = [] ∧ ∀ s, rest.head? = some s → startT = s.start) →
      (csegs ≠ [] →
        (cur = joinT csegs ∨ cur = ' ' :: joinT csegs) ∧
        startT = (csegs.headD default).start) →
      (2 ≤ csegs.length → est cur ≤ maxTok) →
      ∀ c ∈ chunkLoop est maxTok cur startT csegs rest, ChunkFacts est maxTok c := by
  intro rest
  induction rest with
  | nil =>
      intro cur startT csegs h0 h1 hb c hc
      by_cases hcur : cur = []
      · simp [chunkLoop, hcur] at hc
      · rw [chunkLoop, if_pos hcur] at hc
        have hcs : csegs ≠ [] := fun h => hcur (h0 h).1
        obtain ⟨hcur2, hstart⟩ := h1 hcs
        simp only [List.mem_singleton] at hc
        subst hc
        refine ⟨hcs, hstart, rfl, ?_, rfl, hcur2, hb⟩
        show pyStrip cur = pyStrip (joinT csegs)
        rcases hcur2 with h | h
        · rw [h]
        · rw [h, pyStrip_space_cons]
  | cons seg rest ih =>
      intro cur startT csegs h0 h1 hb c hc
      rw [chunkLoop] at hc
      by_cases hover : maxTok < est (cur ++ ' ' :: seg.text)
      · rw [if_pos hover] at hc
        rcases List.mem_append.mp hc with hfl | hrec
        · by_cases hcur : cur = []
          · simp [hcur] at hfl
          · have hcs : csegs ≠ [] := fun h => hcur (h0 h).1
            obtain ⟨hcur2, hstart⟩ := h1 hcs
            rw [if_pos hcur] at hfl
            simp only [List.mem_singleton] at hfl
            subst hfl
            refine ⟨hcs, hstart, rfl, ?_, rfl, hcur2, hb⟩
            show pyStrip cur = pyStrip (joinT csegs)
            rcases hcur2 with h | h
            · rw [h]
            · rw [h, pyStrip_space_cons]
        · refine ih seg.text seg.start [seg]
            (fun h => absurd h (by simp))
            (fun _ => ⟨Or.inl rfl, rfl⟩) (by simp) c hrec
      · rw [if_neg hover] at hc
        have hle : est (cur ++ ' ' :: seg.text) ≤ maxTok := le_of_not_lt hover
        refine ih (cur ++ ' ' :: seg.text) startT (csegs ++ [seg])
          (fun h => absurd h (by simp)) (fun _ => ⟨?_, ?_⟩) (fun _ => hle) c hc
        · by_cases hcs : csegs = []
          · subst hcs
            obtain ⟨hcur, _⟩ := h0 rfl
            subst hcur
            exact Or.inr rfl
          · rw [joinT_append_single csegs seg hcs]
            rcases (h1 hcs).1 with h | h
            · exact Or.inl (by rw [h])
            · refine Or.inr ?_
              rw [h]
              simp
        · by_cases hcs : csegs = []
          · subst hcs
            simp only [List.nil_append]
            exact (h0 rfl).2 seg rfl
          · obtain ⟨_, hstart⟩ := h1 hcs
            cases csegs with
            | nil => exact absurd rfl hcs
            | cons a as => simpa using hstart

/-- Every yielded chunk of `chunk_transcript_segments` satisfies `ChunkFacts`. -/
theorem chunkRec_facts (est : PyStr → ℤ) (maxTok : ℤ) (segs : List Segment) :
    ∀ c ∈ chunkRec est maxTok segs, ChunkFacts est maxTok c := by
  cases segs with
  | nil => intro c hc; simp [chunkRec] at hc
  | cons s rest =>
      refine chunkLoop_facts est maxTok (s :: rest) [] s.start []
        (fun _ => ⟨rfl, fun t ht => ?_⟩) (fun h => absurd rfl h) (by simp)
      simp only [List.head?_cons, Option.some.injEq] at ht
      exact ht ▸ rfl

/-- Coverage at the entry point: for well-formed segments (non-empty texts),
the covered runs concatenate to the input. -/
theorem chunkRec_cover (est : PyStr → ℤ) (maxTok : ℤ) (segs : List Segment)
    (h : ∀ s ∈ segs, s.text ≠ []) :
    coveredSegs (chunkRec est maxTok segs) = segs := by
  cases segs with
  | nil => simp [chunkRec, coveredSegs]
  | cons s rest =>
      exact chunkLoop_cover est maxTok (s :: rest) [] s.start [] h (by simp)

/-- Non-decreasing `start` order on segments, the input invariant the spec
assumes but the code does not enforce. -/
def startLE (a b : Segment) : Prop := a.start ≤ b.start

/-- If the not-yet-flushed run and the unscanned rest are jointly sorted with
`start ≤ stop` per segment, every emitted chunk covers a sorted run of
segments each having `start ≤ stop`. -/
theorem chunkLoop_sorted (est : PyStr → ℤ) (maxTok : ℤ) :
    ∀ (rest : List Segment) (cur : PyStr) (startT : ℚ) (csegs : List Segment),
      (csegs ++ rest).Pairwise startLE →
      (∀ s ∈ csegs ++ rest, s.start ≤ s.stop) →
      ∀ c ∈ chunkLoop est maxTok cur startT csegs rest,
        c.segs.Pairwise startLE ∧ ∀ s ∈ c.segs, s.start ≤ s.stop := by
  intro rest
  induction rest with
  | nil =>
      intro cur startT csegs hp hse c hc
      by_cases hcur : cur = []
      · simp [chunkLoop, hcur] at hc
      · rw [chunkLoop, if_pos hcur] at hc
        simp only [List.mem_singleton] at hc
        subst hc
        simp only [List.append_nil] at hp hse
        exact ⟨hp, hse⟩
  | cons seg rest ih =>
      intro cur startT csegs hp hse c hc
      rw [chunkLoop] at hc
      have hsuffix : (seg :: rest).Pairwise startLE :=
        (List.pairwise_append.mp hp).2.1
      have hsesuffix : ∀ s ∈ seg :: rest, s.start ≤ s.stop :=
        fun s hs => hse s (List.mem_append.mpr (Or.inr hs))
      by_cases hover : maxTok < est (cur ++ ' ' :: seg.text)
      · rw [if_pos hover] at hc
        rcases List.mem_append.mp hc with hfl | hrec
        · by_cases hcur : cur = []
          · simp [hcur] at hfl
          · rw [if_pos hcur] at hfl
            simp only [List.mem_singleton] at hfl
            subst hfl
            exact ⟨(List.pairwise_append.mp hp).1,
              fun s hs => hse s (List.mem_append.mpr (Or.inl hs))⟩
        · exact ih seg.text seg.start [seg] (by simpa using hsuffix)
            (by simpa using hsesuffix) c hrec
      · rw [if_neg hover] at hc
        refine ih (cur ++ ' ' :: seg.text) startT (csegs ++ [seg]) ?_ ?_ c hc
        · simpa [List.append_assoc] using hp
        · intro s hs
          refine hse s ?_
          simpa [List.append_assoc] using hs

/-- Any segment of a chunk's run whose text alone exceeds the budget is the
only segment of that run, provided the estimator is monotone with respect to
appending on either side. -/
theorem chunkLoop_oversized (est : PyStr → ℤ) (maxTok : ℤ)
    (hmono : ∀ a b : PyStr, est a ≤ est (a ++ b) ∧ est b ≤ est (a ++ b)) :
    ∀ (rest : List Segment) (cur : PyStr) (startT : ℚ) (csegs : List Segment),
      (csegs = [] → cur = []) →
      (csegs ≠ [] → cur = joinT csegs ∨ cur = ' ' :: joinT csegs) →
      (∀ s ∈ csegs, maxTok < est s.text → csegs = [s]) →
      ∀ c ∈ chunkLoop est maxTok cur startT csegs rest,
        ∀ s ∈ c.segs, maxTok < est s.text → c.segs = [s] := by
  intro rest
  induction rest with
  | nil =>
      intro cur startT csegs h0 h1 hov c hc
      by_cases hcur : cur = []
      · simp [chunkLoop, hcur] at hc
      · rw [chunkLoop, if_pos hcur] at hc
        simp only [List.mem_singleton] at hc
        subst hc
        exact hov
  | cons seg rest ih =>
      intro cur startT csegs h0 h1 hov c hc
      rw [chunkLoop] at hc
      by_cases hover : maxTok < est (cur ++ ' ' :: seg.text)
      · rw [if_pos hover] at hc
        rcases List.mem_append.mp hc with hfl | hrec
        · by_cases hcur : cur = []
          · simp [hcur] at hfl
          · rw [if_pos hcur] at hfl
            simp only [List.mem_singleton] at hfl
            subst hfl
            exact hov
        · refine ih seg.text seg.start [seg] (fun h => absurd h (by simp))
            (fun _ => Or.inl rfl) ?_ c hrec
          intro s hs _
          simp only [List.mem_singleton] at hs
          rw [hs]
      · rw [if_neg hover] at hc
        have hle : est (cur ++ ' ' :: seg.text) ≤ maxTok := le_of_not_lt hover
        -- the segment being appended is itself within budget
        have hsegle : est seg.text ≤ maxTok := by
          calc est seg.text ≤ est (' ' :: seg.text) := (hmono [' '] seg.text).2
            _ ≤ est (cur ++ ' ' :: seg.text) := (hmono cur (' ' :: seg.text)).2
            _ ≤ maxTok := hle
        refine ih (cur ++ ' ' :: seg.text) startT (csegs ++ [seg])
          (fun h => absurd h (by simp)) (fun _ => ?_) ?_ c hc
        · by_cases hcs : csegs = []
          · subst hcs
            rw [h0 rfl]
            exact Or.inr rfl
          · rw [joinT_append_single csegs seg hcs]
            rcases h1 hcs with h | h
            · exact Or.inl (by rw [h])
            · refine Or.inr ?_
              rw [h]
              simp
        · intro s hs hsover
          rcases List.mem_append.mp hs with hsc | hsseg
          · -- an oversized segment cannot already be in a run that grew
            exfalso
            have hsingle := hov s hsc hsover
            have hcs : csegs ≠ [] := by rw [hsingle]; simp
            have hcurge : est s.text ≤ est cur := by
              rcases h1 hcs with h | h
              · rw [h, hsingle]
                exact le_of_eq rfl
              · rw [h, hsingle]
                exact (hmono [' '] (joinT [s])).2
            have : est cur ≤ est (cur ++ ' ' :: seg.text) :=
              (hmono cur (' ' :: seg.text)).1
            omega
          · simp only [List.mem_singleton] at hsseg
            subst hsseg
            omega

/-- The loop emits at most one chunk per scanned segment (plus the pending
accumulation, when non-empty). -/
theorem chunkLoop_length (est : PyStr → ℤ) (maxTok : ℤ) :
    ∀ (rest : List Segment) (cur : PyStr) (startT : ℚ) (csegs : List Segment),
      (chunkLoop est maxTok cur startT csegs rest).length ≤
        (if cur = [] then 0 else 1) + rest.length := by
  intro rest
  induction rest with
  | nil =>
      intro cur startT csegs
      by_cases hcur : cur = [] <;> simp [chunkLoop, hcur]
  | cons seg rest ih =>
      intro cur startT csegs
      rw [chunkLoop]
      by_cases hover : maxTok < est (cur ++ ' ' :: seg.text)
      · rw [if_pos hover]
        have h1 := ih seg.text seg.start [seg]
        by_cases hcur : cur = [] <;>
          · simp only [hcur, List.length_append, List.length_cons]
            split_ifs at h1 <;> simp_all <;> omega
      · rw [if_neg hover]
        have h1 := ih (cur ++ ' ' :: seg.text) startT (csegs ++ [seg])
        have hne : cur ++ ' ' :: seg.text ≠ [] := by simp
        rw [if_neg hne] at h1
        refine le_trans h1 ?_
        by_cases hcur : cur = [] <;> simp [hcur, List.length_cons] <;> omega

/-- `chunk_transcript_segments` yields at most one chunk per input segment. -/
theorem chunkRec_length (est : PyStr → ℤ) (maxTok : ℤ) (segs : List Segment) :
    (chunkRec est maxTok segs).length ≤ segs.length := by
  cases segs with
  | nil => simp [chunkRec]
  | cons s rest =>
      have h := chunkLoop_length est maxTok (s :: rest) [] s.start []
      simpa using h

/-- A chunk whose raw accumulator carries the extra leading separator that the
very first candidate string `"" + " " + segments[0]['text']` introduces. -/
def Spacey (c : ChunkR) : Prop := c.raw = ' ' :: joinT c.segs

/-- Once the accumulator has the restart shape (no leading separator), no
later chunk ever carries one. -/
theorem chunkLoop_noSpacey (est : PyStr → ℤ) (maxTok : ℤ) :
    ∀ (rest : List Segment) (cur : PyStr) (startT : ℚ) (csegs : List Segment),
      csegs ≠ [] → cur = joinT csegs →
      ∀ c ∈ chunkLoop est maxTok cur startT csegs rest, ¬ Spacey c := by
  intro rest
  induction rest with
  | nil =>
      intro cur startT csegs hcs hcur c hc
      by_cases hcurnil : cur = []
      · simp [chunkLoop, hcurnil] at hc
      · rw [chunkLoop, if_pos hcurnil] at hc
        simp only [List.mem_singleton] at hc
        subst hc
        intro hsp
        have := hsp.symm.trans hcur
        have hlen := congrArg List.length this
        simp at hlen
  | cons seg rest ih =>
      intro cur startT csegs hcs hcur c hc
      rw [chunkLoop] at hc
      by_cases hover : maxTok < est (cur ++ ' ' :: seg.text)
      · rw [if_pos hover] at hc
        rcases List.mem_append.mp hc with hfl | hrec
        · by_cases hcurnil : cur = []
          · simp [hcurnil] at hfl
          · rw [if_pos hcurnil] at hfl
            simp only [List.mem_singleton] at hfl
            subst hfl
            intro hsp
            have := hsp.symm.trans hcur
            have hlen := congrArg List.length this
            simp at hlen
        · exact ih seg.text seg.start [seg] (by simp) rfl c hrec
      · rw [if_neg hover] at hc
        refine ih (cur ++ ' ' :: seg.text) startT (csegs ++ [seg]) (by simp) ?_ c hc
        rw [joinT_append_single csegs seg hcs, hcur]

/-- While the accumulator still carries the initial leading separator, a chunk
that also carries it can only be the first chunk emitted, covering a run that
begins with the first accumulated segment. -/
theorem chunkLoop_spacey_head (est : PyStr → ℤ) (maxTok : ℤ) :
    ∀ (rest : List Segment) (cur : PyStr) (startT : ℚ) (csegs : List Segment),
      csegs ≠ [] → cur = ' ' :: joinT csegs →
      ∀ c ∈ chunkLoop est maxTok cur startT csegs rest, Spacey c →
        (chunkLoop est maxTok cur startT csegs rest).head? = some c ∧
        c.segs.head? = csegs.head? := by
  intro rest
  induction rest with
  | nil =>
      intro cur startT csegs hcs hcur c hc _
      have hcurnil : cur ≠ [] := by rw [hcur]; simp
      rw [chunkLoop, if_pos hcurnil] at hc ⊢
      simp only [List.mem_singleton] at hc
      subst hc
      exact ⟨rfl, rfl⟩
  | cons seg rest ih =>
      intro cur startT csegs hcs hcur c hc hsp
      have hcurnil : cur ≠ [] := by rw [hcur]; simp
      rw [chunkLoop] at hc ⊢
      by_cases hover : maxTok < est (cur ++ ' ' :: seg.text)
      · rw [if_pos hover] at hc ⊢
        rw [if_pos hcurnil] at hc ⊢
        rcases List.mem_append.mp hc with hfl | hrec
        · simp only [List.mem_singleton] at hfl
          subst hfl
          exact ⟨rfl, rfl⟩
        · exact absurd hsp
            (chunkLoop_noSpacey est maxTok rest seg.text seg.start [seg]
              (by simp) rfl c hrec)
      · rw [if_neg hover] at hc ⊢
        have hcur' : cur ++ ' ' :: seg.text = ' ' :: joinT (csegs ++ [seg]) := by
          rw [joinT_append_single csegs seg hcs, hcur]
          simp
        obtain ⟨hhead, hsegs⟩ :=
          ih (cur ++ ' ' :: seg.text) startT (csegs ++ [seg]) (by simp) hcur' c hc hsp
        refine ⟨hhead, hsegs.trans ?_⟩
        cases csegs with
        | nil => exact absurd rfl hcs
        | cons a as => simp

/-! ## Concrete estimators and inputs used to instantiate the theorems -/

/-- A simple deterministic token estimator: one token per character. -/
def estLen (s : PyStr) : ℤ := s.length

theorem estLen_mono (a b : PyStr) :
    estLen a ≤ estLen (a ++ b) ∧ estLen b ≤ estLen (a ++ b) := by
  simp only [estLen, List.length_append]
  omega

theorem length_dropWhile_le (p : Char → Bool) (l : PyStr) :
    (l.dropWhile p).length ≤ l.length :=
  (List.dropWhile_suffix p).sublist.length_le

theorem estLen_strip_le (s : PyStr) : estLen (pyStrip s) ≤ estLen s := by
  simp only [estLen, pyStrip, List.length_reverse, Nat.cast_le]
  calc ((s.dropWhile isSpaceChar).reverse.dropWhile isSpaceChar).length
      ≤ (s.dropWhile isSpaceChar).reverse.length := length_dropWhile_le _ _
    _ = (s.dropWhile isSpaceChar).length := List.length_reverse _
    _ ≤ s.length := length_dropWhile_le _ _

/-- Two short well-formed segments, used as a concrete input. -/
def demoSegs : List Segment := [⟨"ab".toList, 0, 1⟩, ⟨"cd".toList, 2, 3⟩]

/-- A well-formed input whose second segment alone exceeds a budget of 3
under `estLen`. -/
def demoSegs3 : List Segment := [⟨"ab".toList, 0, 1⟩, ⟨"cdefgh".toList, 2, 3⟩]

/-! ## Whitespace / non-whitespace bookkeeping -/

/-- A string containing at least one non-whitespace character. -/
def hasInk (s : PyStr) : Bool := s.any (fun ch => !(isSpaceChar ch))

theorem hasInk_dropWhile (s : PyStr) (h : hasInk s = true) :
    hasInk (s.dropWhile isSpaceChar) = true := by
  induction s with
  | nil => simp [hasInk] at h
  | cons c t ih =>
      by_cases hc : isSpaceChar c = true
      · rw [List.dropWhile_cons, if_pos hc]
        apply ih
        simp only [hasInk, List.any_cons, hc, Bool.not_true, Bool.false_or] at h ⊢
        exact h
      · rw [List.dropWhile_cons, if_neg hc]
        simp only [hasInk, List.any_cons]
        simp [hc]

theorem hasInk_reverse (s : PyStr) : hasInk s.reverse = hasInk s := by
  simp [hasInk]

theorem pyStrip_ne_nil_of_ink (s : PyStr) (h : hasInk s = true) :
    pyStrip s ≠ [] := by
  have h1 := hasInk_dropWhile s h
  rw [← hasInk_reverse _] at h1
  have h2 := hasInk_dropWhile _ h1
  rw [← hasInk_reverse _] at h2
  intro hnil
  rw [pyStrip] at hnil
  rw [hnil] at h2
  simp [hasInk] at h2

theorem hasInk_joinSp (ts : List PyStr) (t : PyStr) (ht : t ∈ ts)
    (h : hasInk t = true) : hasInk (joinSp ts) = true := by
  induction ts with
  | nil => simp at ht
  | cons x xs ih =>
      rcases List.mem_cons.mp ht with h1 | h1
      · subst h1
        cases xs with
        | nil => exact h
        | cons y ys =>
            rw [joinSp_cons t (y :: ys) (by simp)]
            simp only [hasInk, List.any_append] at h ⊢
            rw [h]
            rfl
      · cases xs with
        | nil => simp at h1
        | cons y ys =>
            rw [joinSp_cons x (y :: ys) (by simp)]
            have h2 := ih h1
            simp only [hasInk, List.any_append, List.any_cons] at h2 ⊢
            rw [h2]
            simp

/-! ## Small list lemmas about `getLastD` / `headD` -/

theorem getLastD_mem : ∀ (l : List Segment) (a d : Segment),
    (a :: l).getLastD d ∈ a :: l := by
  intro l
  induction l with
  | nil => intro a d; simp [List.getLastD]
  | cons b bs ih =>
      intro a d
      rw [List.getLastD_cons]
      exact List.mem_cons_of_mem a (ih b a)

theorem getLast?_eq_getLastD : ∀ (l : List Segment), l ≠ [] →
    l.getLast? = some (l.getLastD default) := by
  intro l
  induction l with
  | nil => intro h; exact absurd rfl h
  | cons a as ih =>
      intro _
      cases as with
      | nil => rfl
      | cons b bs =>
          rw [List.getLast?_cons_cons, ih (by simp), List.getLastD_cons,
            List.getLastD_cons, List.getLastD_cons]

theorem headD_start_le_getLastD_start (l : List Segment) (hne : l ≠ [])
    (hp : l.Pairwise startLE) :
    (l.headD default).start ≤ (l.getLastD default).start := by
  cases l with
  | nil => exact absurd rfl hne
  | cons a as =>
      cases as with
      | nil => simp [List.getLastD]
      | cons b bs =>
          have hmem : (a :: b :: bs).getLastD default ∈ b :: bs := by
            rw [List.getLastD_cons]
            exact getLastD_mem bs b a
          exact (List.pairwise_cons.mp hp).1 _ hmem

/-! ## The test-suite's mocked estimator and segments -/

/-- `isPre needle hay`: `needle` is an initial run of `hay`. -/
def isPre : PyStr → PyStr → Bool
  | [], _ => true
  | _ :: _, [] => false
  | a :: as, b :: bs => a == b && isPre as bs

/-- Python's `needle in hay` substring test on our string model. -/
def occursIn (needle : PyStr) : PyStr → Bool
  | [] => isPre needle []
  | c :: t => isPre needle (c :: t) || occursIn needle t

/-- The `MOCK_SEGMENTS` fixture of `tests/test_utils.py` (times `2.5`, `7.5`,
`8.5`, `10.5` written as integer ratios). -/
def MOCK_SEGMENTS : List Segment :=
  [⟨" This is the first sentence.".toList, 0, 2⟩,
   ⟨" And this is a much longer second sentence designed to take up more tokens.".toList,
      Rat.divInt 5 2, 7⟩,
   ⟨" A third one.".toList, Rat.divInt 15 2, Rat.divInt 17 2⟩,
   ⟨" Fourth segment here.".toList, 9, 10⟩,
   ⟨" The final segment is quite long as well, pushing the token limit.".toList,
      Rat.divInt 21 2, 15⟩]

/-- The `token_counts` table of `test_chunking_with_token_limit`. -/
def token_counts : List (PyStr × ℤ) :=
  [(" This is the first sentence.".toList, 10),
   (" And this is a much longer second sentence designed to take up more tokens.".toList, 30),
   (" A third one.".toList, 5),
   (" Fourth segment here.".toList, 5),
   (" The final segment is quite long as well, pushing the token limit.".toList, 25)]

/-- The mocked estimator of `test_chunking_with_token_limit`:
`sum(token_counts[s] for s in token_counts if s in text)`. -/
def mockEst (s : PyStr) : ℤ :=
  (token_counts.map (fun p => if occursIn p.1 s then p.2 else 0)).sum

/-- Entry-point version of the leading-space tracking: a yielded chunk whose
raw accumulator carries the initial separator is the first chunk and its run
starts at the first input segment. -/
theorem chunkRec_spacey (est : PyStr → ℤ) (maxTok : ℤ) (segs : List Segment) :
    ∀ c ∈ chunkRec est maxTok segs, Spacey c →
      (chunkRec est maxTok segs).head? = some c ∧
      c.segs.head? = segs.head? := by
  cases segs with
  | nil => intro c hc; simp [chunkRec] at hc
  | cons s rest =>
      intro c hc hsp
      rw [chunkRec] at hc ⊢
      rw [chunkLoop] at hc ⊢
      simp only [List.nil_append, ne_eq, not_true_eq_false, if_false,
        List.append_nil] at hc ⊢
      by_cases hover : maxTok < est (' ' :: s.text)
      · rw [if_pos hover] at hc ⊢
        exact absurd hsp
          (chunkLoop_noSpacey est maxTok rest s.text s.start [s] (by simp) rfl c hc)
      · rw [if_neg hover] at hc ⊢
        have h := chunkLoop_spacey_head est maxTok rest (' ' :: s.text) s.start [s]
          (by simp) rfl c hc hsp
        exact ⟨h.1, h.2⟩

/-- Entry-point version of `chunkLoop_sorted`. -/
theorem chunkRec_sorted (est : PyStr → ℤ) (maxTok : ℤ) (segs : List Segment)
    (hsort : segs.Pairwise startLE) (hse : ∀ s ∈ segs, s.start ≤ s.stop) :
    ∀ c ∈ chunkRec est maxTok segs,
      c.segs.Pairwise startLE ∧ ∀ s ∈ c.segs, s.start ≤ s.stop := by
  cases segs with
  | nil => intro c hc; simp [chunkRec] at hc
  | cons s rest =>
      exact chunkLoop_sorted est maxTok (s :: rest) [] s.start []
        (by simpa using hsort) (by simpa using hse)

theorem head?_eq_headD (l : List Segment) (hne : l ≠ []) :
    l.head? = some (l.headD default) := by
  cases l with
  | nil => exact absurd rfl hne
  | cons a as => rfl

/-! ## The claims -/

/-- C1: for every finite list of well-formed segments (non-empty `text`, which
is the Python truthiness the loop relies on) and every positive token budget,
the yielded chunks partition the input: the concatenation of the chunks'
covered segment runs, in chunk order, is exactly the input segment list — so
no segment is omitted, duplicated, or shared between two chunks, and chunk
order matches input segment order — and every chunk covers a non-empty run. -/
theorem chunk_coverage_partition (est : PyStr → ℤ) (maxTok : ℤ)
    (hpos : 0 < maxTok) (segs : List Segment)
    (hwf : ∀ s ∈ segs, s.text ≠ []) :
    coveredSegs (chunkRec est maxTok segs) = segs ∧
    ∀ c ∈ chunkRec est maxTok segs, c.segs ≠ [] :=
  ⟨chunkRec_cover est maxTok segs hwf,
   fun c hc => (chunkRec_facts est maxTok segs c hc).1⟩

theorem chunk_coverage_partition_witness :
    coveredSegs (chunkRec estLen 40 demoSegs) = demoSegs ∧
    ∀ c ∈ chunkRec estLen 40 demoSegs, c.segs ≠ [] :=
  chunk_coverage_partition estLen 40 (by decide) demoSegs (by decide)

/-- C2: whenever the estimator does not grow under stripping surrounding
whitespace (true of any reasonable tokenizer; the checked candidate string
differs from the emitted text only by surrounding whitespace), every chunk
covering two or more segments has estimated token count of its emitted
(trimmed) `text` within the budget; and a chunk covering exactly one segment
may legitimately exceed the budget (an explicit run exhibiting this exists). -/
theorem chunk_budget_soft (est : PyStr → ℤ) (maxTok : ℤ) (hpos : 0 < maxTok)
    (segs : List Segment) (htrim : ∀ s : PyStr, est (pyStrip s) ≤ est s) :
    (∀ c ∈ chunkRec est maxTok segs, 2 ≤ c.segs.length → est c.text ≤ maxTok) ∧
    ∃ (est1 : PyStr → ℤ) (segs1 : List Segment) (max1 : ℤ) (c : ChunkR),
      0 < max1 ∧ c ∈ chunkRec est1 max1 segs1 ∧ c.segs.length = 1 ∧
      max1 < est1 c.text := by
  constructor
  · intro c hc h2
    obtain ⟨_, _, _, _, htext, _, hbud⟩ := chunkRec_facts est maxTok segs c hc
    calc est c.text = est (pyStrip c.raw) := by rw [htext]
      _ ≤ est c.raw := htrim c.raw
      _ ≤ maxTok := hbud h2
  · exact ⟨estLen, [⟨"abc".toList, 0, 1⟩], 1,
      ⟨"abc".toList, 0, 1, "abc".toList, [⟨"abc".toList, 0, 1⟩]⟩,
      by decide, by decide, by decide, by decide⟩

theorem chunk_budget_soft_witness :
    (∀ c ∈ chunkRec (fun _ : PyStr => (0 : ℤ)) 40 demoSegs,
      2 ≤ c.segs.length → (fun _ : PyStr => (0 : ℤ)) c.text ≤ 40) ∧
    ∃ (est1 : PyStr → ℤ) (segs1 : List Segment) (max1 : ℤ) (c : ChunkR),
      0 < max1 ∧ c ∈ chunkRec est1 max1 segs1 ∧ c.segs.length = 1 ∧
      max1 < est1 c.text :=
  chunk_budget_soft (fun _ => 0) 40 (by decide) demoSegs (fun _ => le_refl 0)

/-- C3: for well-formed input and an estimator monotone under appending on
either side (true of any reasonable tokenizer), no segment is ever dropped or
split — coverage holds — and any segment whose text alone is estimated above
the budget ends up as the only segment of its chunk: it becomes its own chunk
(possibly exceeding the budget) rather than blocking progress. -/
theorem chunk_oversized_singleton (est : PyStr → ℤ) (maxTok : ℤ)
    (segs : List Segment) (hwf : ∀ s ∈ segs, s.text ≠ [])
    (hmono : ∀ a b : PyStr, est a ≤ est (a ++ b) ∧ est b ≤ est (a ++ b)) :
    coveredSegs (chunkRec est maxTok segs) = segs ∧
    ∀ c ∈ chunkRec est maxTok segs, ∀ s ∈ c.segs,
      maxTok < est s.text → c.segs = [s] := by
  refine ⟨chunkRec_cover est maxTok segs hwf, ?_⟩
  cases segs with
  | nil => intro c hc; simp [chunkRec] at hc
  | cons s rest =>
      exact chunkLoop_oversized est maxTok hmono (s :: rest) [] s.start []
        (fun _ => rfl) (fun h => absurd rfl h) (by simp)

theorem chunk_oversized_singleton_witness :
    coveredSegs (chunkRec estLen 3 demoSegs3) = demoSegs3 ∧
    ∀ c ∈ chunkRec estLen 3 demoSegs3, ∀ s ∈ c.segs,
      3 < estLen s.text → c.segs = [s] :=
  chunk_oversized_singleton estLen 3 demoSegs3 (by decide) estLen_mono

/-- C6: the empty segment list yields no chunks, with no error, for any
positive budget. -/
theorem chunk_empty_input (est : PyStr → ℤ) (maxTok : ℤ) (hpos : 0 < maxTok) :
    chunk_transcript_segments est [] maxTok = [] ∧ chunkRec est maxTok [] = [] :=
  ⟨rfl, rfl⟩

theorem chunk_empty_input_witness :
    chunk_transcript_segments (fun _ => 0) [] 4000 = [] ∧
    chunkRec (fun _ => 0) 4000 [] = [] :=
  chunk_empty_input (fun _ => 0) 4000 (by decide)

/-- C7: the chunker is a deterministic pure function of its inputs: with a
fixed estimator, equal segment lists and equal budgets give equal chunk
sequences.  (In this embedding the operation is a pure function, so it cannot
mutate its input list; Python-level aliasing is outside the model, but the
source loop only reads `segments`.) -/
theorem chunk_deterministic (est : PyStr → ℤ) (maxTok : ℤ)
    (segs1 segs2 : List Segment) (h : segs1 = segs2) :
    chunk_transcript_segments est segs1 maxTok =
      chunk_transcript_segments est segs2 maxTok := by
  rw [h]

theorem chunk_deterministic_witness :
    chunk_transcript_segments estLen demoSegs 40 =
      chunk_transcript_segments estLen demoSegs 40 :=
  chunk_deterministic estLen 40 demoSegs demoSegs rfl

/-- C8: for every finite segment list and every integer budget — including
non-positive budgets, which the source does not validate — the chunker (a
single structurally-recursive forward pass, hence total) yields at most one
chunk per input segment, and for well-formed input it yields a fully covering
chunk sequence. -/
theorem chunk_single_pass_bounds (est : PyStr → ℤ) (maxTok : ℤ)
    (segs : List Segment) :
    (chunk_transcript_segments est segs maxTok).length ≤ segs.length ∧
    (chunkRec est maxTok segs).length ≤ segs.length ∧
    ((∀ s ∈ segs, s.text ≠ []) → coveredSegs (chunkRec est maxTok segs) = segs) := by
  refine ⟨?_, chunkRec_length est maxTok segs, chunkRec_cover est maxTok segs⟩
  simpa [chunk_transcript_segments] using chunkRec_length est maxTok segs

theorem chunk_single_pass_bounds_witness :
    (chunk_transcript_segments estLen demoSegs (-7)).length ≤ demoSegs.length ∧
    (chunkRec estLen (-7) demoSegs).length ≤ demoSegs.length ∧
    ((∀ s ∈ demoSegs, s.text ≠ []) →
      coveredSegs (chunkRec estLen (-7) demoSegs) = demoSegs) :=
  chunk_single_pass_bounds estLen (-7) demoSegs

/-- C10: the budget test is applied to the untrimmed accumulated candidate:
every chunk covering ≥ 2 segments has its raw accumulator estimated within the
budget, the emitted text is the `strip()` of that accumulator (so checked
string and emitted text differ only by surrounding whitespace), and the
accumulator is the single-space join of the covered texts — carrying a leading
space only in the case of the initial accumulation, i.e. for the first chunk,
whose run starts at the very first input segment. -/
theorem chunk_candidate_budget_invariant (est : PyStr → ℤ) (maxTok : ℤ)
    (segs : List Segment) :
    ∀ c ∈ chunkRec est maxTok segs,
      (2 ≤ c.segs.length → est c.raw ≤ maxTok) ∧
      c.text = pyStrip c.raw ∧
      (c.raw = joinT c.segs ∨
        (c.raw = ' ' :: joinT c.segs ∧
          (chunkRec est maxTok segs).head? = some c ∧
          c.segs.head? = segs.head?)) := by
  intro c hc
  obtain ⟨_, _, _, _, htext, hraw, hbud⟩ := chunkRec_facts est maxTok segs c hc
  refine ⟨hbud, htext, ?_⟩
  rcases hraw with h | h
  · exact Or.inl h
  · obtain ⟨hhead, hfirst⟩ := chunkRec_spacey est maxTok segs c hc h
    exact Or.inr ⟨h, hhead, hfirst⟩

/-- The chunk emitted on `demoSegs` under `estLen` with budget 40. -/
def chunkW : ChunkR := ⟨"ab cd".toList, 0, 3, " ab cd".toList, demoSegs⟩

theorem chunk_candidate_budget_invariant_witness :
    (2 ≤ chunkW.segs.length → estLen chunkW.raw ≤ 40) ∧
    chunkW.text = pyStrip chunkW.raw ∧
    (chunkW.raw = joinT chunkW.segs ∨
      (chunkW.raw = ' ' :: joinT chunkW.segs ∧
        (chunkRec estLen 40 demoSegs).head? = some chunkW ∧
        chunkW.segs.head? = demoSegs.head?)) :=
  chunk_candidate_budget_invariant estLen 40 demoSegs chunkW (by decide)

/-- A well-formed (non-empty-text) segment whose text is all whitespace. -/
def wsSeg : Segment := ⟨[' '], 0, 1⟩

/-- C4 counterexample: a chunk's `text` is NOT always non-empty.  A segment
whose non-empty text is all whitespace — allowed by the data model, which only
requires a non-empty string — produces a chunk whose stripped text is empty. -/
theorem chunk_text_nonempty_cex :
    ¬ ∀ c ∈ chunk_transcript_segments (fun _ => 0) [wsSeg] 4000, c.text ≠ [] := by
  decide

/-- C4 (amended): every chunk's `text` is the single-space concatenation of
its consecutive source segments' texts with surrounding whitespace trimmed,
and it is non-empty whenever some covered segment's text contains a
non-whitespace character; `start_time`/`end_time` are the first covered
segment's `start` and the last covered segment's `end`; and assuming each
segment has `end ≥ start` and non-decreasing `start` order,
`start_time ≤ end_time` holds for every chunk. -/
theorem chunk_fields_amended (est : PyStr → ℤ) (maxTok : ℤ) (segs : List Segment)
    (hsort : segs.Pairwise startLE) (hse : ∀ s ∈ segs, s.start ≤ s.stop) :
    ∀ c ∈ chunkRec est maxTok segs,
      c.text = pyStrip (joinT c.segs) ∧
      ((∃ s ∈ c.segs, hasInk s.text = true) → c.text ≠ []) ∧
      (∃ s1 s2, c.segs.head? = some s1 ∧ c.segs.getLast? = some s2 ∧
        c.start_time = s1.start ∧ c.end_time = s2.stop) ∧
      c.start_time ≤ c.end_time := by
  intro c hc
  obtain ⟨hne, hstart, hend, htext, _, _, _⟩ := chunkRec_facts est maxTok segs c hc
  obtain ⟨hp, hses⟩ := chunkRec_sorted est maxTok segs hsort hse c hc
  refine ⟨htext, ?_, ?_, ?_⟩
  · rintro ⟨s, hs, hink⟩
    rw [htext]
    exact pyStrip_ne_nil_of_ink _
      (hasInk_joinSp (c.segs.map Segment.text) s.text (List.mem_map_of_mem _ hs) hink)
  · exact ⟨c.segs.headD default, c.segs.getLastD default,
      head?_eq_headD _ hne, getLast?_eq_getLastD _ hne, hstart, hend⟩
  · rw [hstart, hend]
    calc (c.segs.headD default).start
        ≤ (c.segs.getLastD default).start := headD_start_le_getLastD_start _ hne hp
      _ ≤ (c.segs.getLastD default).stop := by
          refine hses _ ?_
          cases hl : c.segs with
          | nil => exact absurd hl hne
          | cons a as => exact getLastD_mem as a default

theorem chunk_fields_amended_witness :
    chunkW.text = pyStrip (joinT chunkW.segs) ∧
    ((∃ s ∈ chunkW.segs, hasInk s.text = true) → chunkW.text ≠ []) ∧
    (∃ s1 s2, chunkW.segs.head? = some s1 ∧ chunkW.segs.getLast? = some s2 ∧
      chunkW.start_time = s1.start ∧ chunkW.end_time = s2.stop) ∧
    chunkW.start_time ≤ chunkW.end_time :=
  chunk_fields_amended estLen 40 demoSegs
    (by norm_num [demoSegs, List.pairwise_cons, startLE]) (by decide)
    chunkW (by decide)

/-- C5: the two reference scenarios.  With the mocked per-segment costs
`[10, 30, 5, 5, 25]` (summed over the segment texts occurring in the candidate
string) and budget 40, exactly two chunks result: the first covering segments
1–2 with `end_time = 7.0`, the second covering segments 3–5 with
`start_time = 7.5`.  With a constant estimate of 5 and budget 1000, exactly
one chunk results, spanning `start_time = 0.0` to `end_time = 15.0`. -/
theorem chunk_reference_scenarios :
    ((chunkRec mockEst 40 MOCK_SEGMENTS).map ChunkR.segs
        = [MOCK_SEGMENTS.take 2, MOCK_SEGMENTS.drop 2] ∧
      (chunkRec mockEst 40 MOCK_SEGMENTS).map ChunkR.end_time = [7, 15] ∧
      (chunkRec mockEst 40 MOCK_SEGMENTS).map ChunkR.start_time = [0, (7.5 : ℚ)]) ∧
    (chunkRec (fun _ => 5) 1000 MOCK_SEGMENTS).map
        (fun c => (c.start_time, c.end_time)) = [((0 : ℚ), (15 : ℚ))] := by
  have h75 : (7.5 : ℚ) = Rat.divInt 15 2 := by norm_num [Rat.divInt_eq_div]
  refine ⟨⟨by decide, by decide, ?_⟩, by decide⟩
  rw [h75]
  decide

theorem format_timestamp_natCast (n : ℕ) :
    format_timestamp (n : ℚ) =
      if n / 60 / 60 > 0 then
        pad2 (n / 60 / 60) ++ ":" ++ pad2 (n / 60 % 60) ++ ":" ++ pad2 (n % 60)
      else pad2 (n / 60 % 60) ++ ":" ++ pad2 (n % 60) := by
  have h0 : ¬ ((n : ℚ) < 0) := not_lt.mpr (by positivity)
  simp [format_timestamp, h0, Int.floor_natCast, Int.toNat_natCast]

theorem format_timestamp_trunc (q : ℚ) (hq : 0 ≤ q) :
    format_timestamp q = format_timestamp (((⌊q⌋).toNat : ℕ) : ℚ) := by
  have hneg : ¬ q < 0 := not_lt.mpr hq
  rw [format_timestamp_natCast]
  simp only [format_timestamp, if_neg hneg]

/-- C9: `format_timestamp` returns `"00:00"` on every negative input; on
non-negative input it depends only on the integer truncation of the input;
below one hour it renders zero-padded `MM:SS` with seconds in `00–59`, and
from one hour on it renders `HH:MM:SS`; and the six reference examples hold. -/
theorem format_timestamp_spec :
    (∀ q : ℚ, q < 0 → format_timestamp q = "00:00") ∧
    (∀ q : ℚ, 0 ≤ q →
      format_timestamp q = format_timestamp (((⌊q⌋).toNat : ℕ) : ℚ) ∧
      ((⌊q⌋).toNat < 3600 →
        format_timestamp q =
          pad2 ((⌊q⌋).toNat / 60) ++ ":" ++ pad2 ((⌊q⌋).toNat % 60) ∧
        (⌊q⌋).toNat % 60 ≤ 59) ∧
      (3600 ≤ (⌊q⌋).toNat →
        format_timestamp q =
          pad2 ((⌊q⌋).toNat / 3600) ++ ":" ++ pad2 ((⌊q⌋).toNat / 60 % 60)
            ++ ":" ++ pad2 ((⌊q⌋).toNat % 60))) ∧
    format_timestamp (35.6 : ℚ) = "00:35" ∧
    format_timestamp 150 = "02:30" ∧
    format_timestamp 3599 = "59:59" ∧
    format_timestamp 3661 = "01:01:01" ∧
    format_timestamp 0 = "00:00" ∧
    format_timestamp (-10) = "00:00" := by
  refine ⟨?_, ?_, ?_, by decide, by decide, by decide, by decide, by decide⟩
  · intro q hq
    simp [format_timestamp, hq]
  · intro q hq
    refine ⟨format_timestamp_trunc q hq, ?_, ?_⟩
    · intro hlt
      constructor
      · rw [format_timestamp_trunc q hq, format_timestamp_natCast,
          if_neg (by omega),
          show (⌊q⌋).toNat / 60 % 60 = (⌊q⌋).toNat / 60 from by omega]
      · omega
    · intro hge
      rw [format_timestamp_trunc q hq, format_timestamp_natCast,
        if_pos (by omega),
        show (⌊q⌋).toNat / 60 / 60 = (⌊q⌋).toNat / 3600 from by omega]
  · have h356 : (35.6 : ℚ) = Rat.divInt 178 5 := by norm_num [Rat.divInt_eq_div]
    rw [h356]
    decide

theorem format_timestamp_spec_witness :
    format_timestamp (-5) = "00:00" ∧
    (3600 ≤ (⌊(3725 : ℚ)⌋).toNat →
      format_timestamp (3725 : ℚ) =
        pad2 ((⌊(3725 : ℚ)⌋).toNat / 3600) ++ ":" ++
          pad2 ((⌊(3725 : ℚ)⌋).toNat / 60 % 60) ++ ":" ++
          pad2 ((⌊(3725 : ℚ)⌋).toNat % 60)) :=
  ⟨format_timestamp_spec.1 (-5) (by norm_num),
   (format_timestamp_spec.2.1 3725 (by norm_num)).2.2⟩

